import Mathlib

/-!
Shallow embedding of `models/preprocess.py` (neural_sequence_labeling).

Python strings are modelled as `List Char`, Python dicts as association
lists or partial-map functions, and fallible Python code (KeyError,
IndexError, ValueError, explicit `raise`) as `Option`/`Except` results.
-/

set_option maxHeartbeats 1000000

/-- Python module constant `UNK = '<UNK>'`. -/
def UNK : List Char := ['<', 'U', 'N', 'K', '>']

/-- Python module constant `NUM = '<NUM>'`. -/
def NUM : List Char := ['<', 'N', 'U', 'M', '>']

/-- Python module constant `PAD = '<PAD>'`. -/
def PAD : List Char := ['<', 'P', 'A', 'D', '>']

/-- Python module constant `NONE = 'O'` (the default/outside tag). -/
def NONE : List Char := ['O']

/-- Python `s.split(sep)` for a single-character separator `sep`:
splits at every occurrence of the separator, keeping empty fields. -/
def splitOnChar (sep : Char) : List Char → List (List Char)
  | [] => [[]]
  | c :: rest =>
    if c = sep then [] :: splitOnChar sep rest
    else
      match splitOnChar sep rest with
      | [] => [[c]]
      | y :: ys => (c :: y) :: ys

/-- The body of the loop of `_pad_sequences`, for one sequence `seq`:
`seq[:max_length] + [pad_tok] * max(max_length - len(seq), 0)` when
`len(seq) < max_length`, else `seq[:max_length]`. -/
def padOne (pad_tok : α) (max_length : Nat) (seq : List α) : List α :=
  if seq.length < max_length then
    seq.take max_length ++ List.replicate (max (max_length - seq.length) 0) pad_tok
  else
    seq.take max_length

/-- Python `_pad_sequences(sequences, pad_tok, max_length)`: the loop
accumulates the padded sequences and the clipped lengths
`min(len(seq), max_length)`, rendered here as two maps. -/
def _pad_sequences (pad_tok : α) (max_length : Nat) (sequences : List (List α)) :
    List (List α) × List Nat :=
  (sequences.map (padOne pad_tok max_length),
   sequences.map (fun seq => min seq.length max_length))

/-- Python `max(...)` over a list of naturals; raises `ValueError` on an
empty list, hence `Option`. -/
def pyMax : List Nat → Option Nat
  | [] => none
  | x :: xs => some (xs.foldl max x)

/-- `pad_sequences(sequences, max_length, pad_tok)` with `nlevels=1`
(the default): when `max_length` is `None` it is computed as the maximum
input length, which fails on an empty sequence list. -/
def pad_sequences (sequences : List (List α)) (max_length : Option Nat) (pad_tok : α) :
    Option (List (List α) × List Nat) :=
  match max_length with
  | some m => some (_pad_sequences pad_tok m sequences)
  | none =>
    match pyMax (sequences.map List.length) with
    | none => none
    | some m => some (_pad_sequences pad_tok m sequences)

/-- The list comprehension
`[max(map(lambda x: len(x), seq)) for seq in sequences]` of the
`nlevels=2` branch of `pad_sequences`; any empty inner sequence makes
the inner `max` raise. -/
def innerMaxes : List (List (List α)) → Option (List Nat)
  | [] => some []
  | seq :: rest =>
    match pyMax (seq.map List.length), innerMaxes rest with
    | some m, some ms => some (m :: ms)
    | _, _ => none

/-- The word target of the `nlevels=2` branch: the given `max_length_word`
or, when `None`, the maximum word length over all sentences. -/
def wTargetOf (sequences : List (List (List α))) (max_length_word : Option Nat) :
    Option Nat :=
  match max_length_word with
  | some w => some w
  | none =>
    match innerMaxes sequences with
    | none => none
    | some ms => pyMax ms

/-- The sentence target of the `nlevels=2` branch: the given `max_length`
or, when `None`, the maximum sentence length. -/
def sTargetOf (sequences : List (List (List α))) (max_length : Option Nat) :
    Option Nat :=
  match max_length with
  | some m => some m
  | none => pyMax (sequences.map List.length)

/-- `pad_sequences(sequences, max_length, pad_tok, max_length_word, nlevels=2)`:
pad every word to `max_length_word` characters, then pad every sentence to
`max_length` words using a whole word of pad tokens as filler, and pad the
per-word length lists to `max_length` entries using `0` as filler. -/
def pad_sequences2 (sequences : List (List (List α))) (max_length : Option Nat)
    (pad_tok : α) (max_length_word : Option Nat) :
    Option (List (List (List α)) × List (List Nat)) :=
  match wTargetOf sequences max_length_word with
  | none => none
  | some w =>
    let inner := sequences.map (fun seq => _pad_sequences pad_tok w seq)
    let sequence_padded := inner.map Prod.fst
    let sequence_length := inner.map Prod.snd
    match sTargetOf sequences max_length with
    | none => none
    | some s =>
      some ((_pad_sequences (List.replicate w pad_tok) s sequence_padded).1,
            (_pad_sequences 0 s sequence_length).1)

/-- The regex `^[-+]?[0-9]+,[0-9]+$` of `Processor.is_digit`, as a direct
matcher: optional sign, one or more digits, a comma, one or more digits.
In Python's `re` (without `MULTILINE`), `$` matches at the end of the
string or just before one newline at the end, so after the second digit
run the remainder must be empty or a single final `'\n'`. The greedy
digit runs are exact here because `[0-9]` matches neither `','` nor
`'\n'`. -/
def commaNumMatch (s : List Char) : Bool :=
  let s1 : List Char :=
    match s with
    | [] => []
    | c :: rest => if c = '-' || c = '+' then rest else c :: rest
  let sp := s1.span Char.isDigit
  match sp.2 with
  | ',' :: r2 =>
    let sp2 := r2.span Char.isDigit
    !sp.1.isEmpty && !sp2.1.isEmpty && (sp2.2.isEmpty || sp2.2 == ['\n'])
  | _ => false

/-- `Processor.is_digit(s)`: `floatParses` models CPython `float(s)`
succeeding and `numericValue` models `unicodedata.numeric(c)` being
defined for a character — both are external interpreter behavior, passed
as parameters; `unicodedata.numeric` raises `TypeError` unless `s` is a
single character, which is structural and modelled by the match. The
three checks are tried in source order. -/
def is_digit (floatParses : List Char → Bool) (numericValue : Char → Bool)
    (s : List Char) : Bool :=
  if floatParses s then true
  else if (match s with | [c] => numericValue c | _ => false) then true
  else if commaNumMatch s then true
  else false

/-- Python `str.lower()`, modelled characterwise. -/
def pyLower (w : List Char) : List Char := w.map Char.toLower

/-- The value returned by `Processor.fit`: a bare word id, or a pair of
character ids and word id when character features are enabled. -/
inductive EncodedToken where
  | plain (wordId : Nat)
  | withChars (charIds : List Nat) (wordId : Nat)
deriving DecidableEq, Repr

def EncodedToken.wordId : EncodedToken → Nat
  | .plain w => w
  | .withChars _ w => w

/-- `Processor.__init__` state: the vocabularies (Python dicts, modelled
as partial maps; `word_vocab` is always loaded, `char_vocab` optional)
and the three flags. -/
structure Processor where
  word_vocab : List Char → Option Nat
  char_vocab : Option (Char → Option Nat)
  lowercase : Bool
  use_chars : Bool
  allow_unk : Bool

/-- How `Processor.fit` can fail: the explicit
`Exception("Unknown key is not allowed.")`, or the `KeyError` from
`self.word_vocab[UNK]` when the `<UNK>` sentinel is missing. -/
inductive FitError where
  | unknownNotAllowed
  | keyError
deriving DecidableEq, Repr

/-- The word-form `Processor.fit` looks up: lowercased when configured,
then replaced by the `<NUM>` placeholder when `is_digit` accepts it. -/
def processedWord (p : Processor) (fp : List Char → Bool) (nv : Char → Bool)
    (word : List Char) : List Char :=
  let w := if p.lowercase then pyLower word else word
  if is_digit fp nv w then NUM else w

/-- The return shape of `Processor.fit`: the pair `(char_ids, word_id)`
when character features are on (`self.char_vocab is not None and
self.use_chars is True`), the bare word id otherwise. -/
def mkEncoded (p : Processor) (char_ids : List Nat) (id : Nat) : EncodedToken :=
  match p.char_vocab with
  | some _ => if p.use_chars then .withChars char_ids id else .plain id
  | none => .plain id

/-- `Processor.fit(word)`: collect ids of the original word's characters
present in the character vocabulary (silently skipping the rest) when
character features are on; process the word (lowercase, numeric
placeholder); look it up in the word vocabulary, falling back to the
`<UNK>` id when allowed and failing otherwise. The Python
`if self.word_vocab is not None` test is always true (the constructor
always loads it), so it is not modelled. -/
def Processor.fit (p : Processor) (fp : List Char → Bool) (nv : Char → Bool)
    (word : List Char) : Except FitError EncodedToken :=
  let char_ids : List Nat :=
    match p.char_vocab with
    | some cv => if p.use_chars then word.filterMap cv else []
    | none => []
  let w := processedWord p fp nv word
  match p.word_vocab w with
  | some id => .ok (mkEncoded p char_ids id)
  | none =>
    if p.allow_unk then
      match p.word_vocab UNK with
      | some uid => .ok (mkEncoded p char_ids uid)
      | none => .error .keyError
    else .error .unknownNotAllowed

/-- A batch element of `batch_iter`: a sentence passed through unchanged
(list of encoded tokens), or the `zip(*x)` transpose (per-token character
id lists and per-token word ids) when the tokens are tuples. -/
abbrev XItem := List EncodedToken ⊕ (List (List Nat) × List Nat)

/-- The per-sentence step `if type(x[0]) == tuple: x = zip(*x)` of
`batch_iter`. `x[0]` on an empty sentence raises `IndexError` (hence
`none`); `zip(*x)` with a mix of tuple and non-tuple tokens raises
`TypeError` (hence `none`). -/
def transposeIfTuple (x : List EncodedToken) : Option XItem :=
  match x with
  | [] => none
  | t :: _ =>
    match t with
    | .plain _ => some (.inl x)
    | .withChars _ _ =>
      match x.mapM (fun tok =>
        match tok with
        | .withChars cs w => some (cs, w)
        | .plain _ => none) with
      | none => none
      | some pairs => some (.inr (pairs.map Prod.fst, pairs.map Prod.snd))

/-- The loop of `batch_iter`: a full accumulated batch is yielded before
the current element is processed; the current element is transposed when
needed and appended; a non-empty trailing batch is yielded at the end. -/
def batchIterAux (B : Nat) :
    List (List EncodedToken × β) → List XItem → List β →
    Option (List (List XItem × List β))
  | [], bx, byl => if bx.length ≠ 0 then some [(bx, byl)] else some []
  | (x, y) :: rest, bx, byl =>
    if bx.length = B then
      match transposeIfTuple x with
      | none => none
      | some x2 =>
        match batchIterAux B rest [x2] [y] with
        | none => none
        | some tail => some ((bx, byl) :: tail)
    else
      match transposeIfTuple x with
      | none => none
      | some x2 => batchIterAux B rest (bx ++ [x2]) (byl ++ [y])

/-- `batch_iter(dataset, batch_size)`: run the loop with empty
accumulators; the generator's finite yield sequence is the resulting
list, and an exception anywhere is `none`. -/
def batch_iter (dataset : List (List EncodedToken × β)) (B : Nat) :
    Option (List (List XItem × List β)) :=
  batchIterAux B dataset [] []

/-- Elementwise transposition of a dataset, pairing each transposed
sentence with its tag sequence. -/
def encodeAll : List (List EncodedToken × β) → Option (List (XItem × β))
  | [] => some []
  | (x, y) :: rest =>
    match transposeIfTuple x, encodeAll rest with
    | some x2, some l => some ((x2, y) :: l)
    | _, _ => none

/-- Split a list into consecutive groups of `B` elements, the last group
holding the 1 to `B` remaining elements. -/
def groupsOf (B : Nat) (l : List α) : List (List α) :=
  if h : l.isEmpty || B == 0 then (if l.isEmpty then [] else [l])
  else l.take B :: groupsOf B (l.drop B)
termination_by l.length
decreasing_by
  simp only [Bool.or_eq_true, beq_iff_eq, List.isEmpty_iff, not_or] at h
  obtain ⟨h1, h2⟩ := h
  have h3 : l.length ≠ 0 := fun hc => h1 (List.length_eq_zero.mp hc)
  simp only [List.length_drop]
  omega

/-- Python `str.strip()`: drop whitespace from both ends. -/
def pyStrip (l : List Char) : List Char :=
  ((l.dropWhile Char.isWhitespace).reverse.dropWhile Char.isWhitespace).reverse

/-- The sentence-boundary marker literal of `Dataset.__iter__`. -/
def DOCSTART : List Char := ['-', 'D', 'O', 'C', 'S', 'T', 'A', 'R', 'T', '-']

/-- The line loop of `Dataset.__iter__` over the file's lines, carrying
the accumulated `words`/`tags` of the current sentence and the sentence
counter `niter`. A stripped blank or `-DOCSTART-` line with a non-empty
accumulator yields the sentence (unless `max_iter` makes the loop break
first, without yielding); other lines are split on the delimiter and
contribute `ls[0]` and `ls[tag_idx]` (an out-of-range `tag_idx` raises,
hence `none`); tokens accumulated when the file ends are discarded. The
optional word/tag processors are modelled at their default `None`. The
delimiter is modelled as a single character (the default `' '`). -/
def datasetIterAux (tag_idx : Nat) (delim : Char) (max_iter : Option Nat) :
    List (List Char) → List (List Char) → List (List Char) → Nat →
    Option (List (List (List Char) × List (List Char)))
  | [], _, _, _ => some []
  | line :: rest, words, tags, niter =>
    let l := pyStrip line
    if l.length = 0 ∨ DOCSTART.isPrefixOf l then
      if words.length ≠ 0 then
        let stop : Bool :=
          match max_iter with
          | some m => decide (niter + 1 > m)
          | none => false
        if stop then some []
        else
          match datasetIterAux tag_idx delim max_iter rest [] [] (niter + 1) with
          | none => none
          | some out => some ((words, tags) :: out)
      else datasetIterAux tag_idx delim max_iter rest words tags niter
    else
      match (splitOnChar delim l)[0]?, (splitOnChar delim l)[tag_idx]? with
      | some word, some tag =>
        datasetIterAux tag_idx delim max_iter rest (words ++ [word]) (tags ++ [tag]) niter
      | _, _ => none

/-- `Dataset.__iter__` as a function of the file's lines: the list of
yielded `(words, tags)` sentences. -/
def dataset_iter (tag_idx : Nat) (delim : Char) (max_iter : Option Nat)
    (lines : List (List Char)) :
    Option (List (List (List Char) × List (List Char))) :=
  datasetIterAux tag_idx delim max_iter lines [] [] 0

/-- A line that, after stripping, is neither blank nor a `-DOCSTART-`
line, and has a field at `tag_idx` when split on the delimiter. -/
def tokenLineOk (tag_idx : Nat) (delim : Char) (line : List Char) : Bool :=
  let l := pyStrip line
  !l.isEmpty && !(DOCSTART.isPrefixOf l) && ((splitOnChar delim l)[tag_idx]?).isSome

/-- A chunk `(chunk_type, chunk_start, chunk_end)` produced by `get_chunks`. -/
def Chunk : Type := List Char × Nat × Nat

instance : DecidableEq Chunk := by
  unfold Chunk
  infer_instance

/-- `get_chunk_type(tok, idx_to_tag)`: look the token id up in the inverse
tag mapping (KeyError becomes `none`), then split the tag name on `'-'`;
the class is the field before the first separator (`split('-')[0]`) and the
type is the field after the last one (`split('-')[-1]`). -/
def get_chunk_type (tok : Nat) (idx_to_tag : Nat → Option (List Char)) :
    Option (List Char × List Char) :=
  match idx_to_tag tok with
  | none => none
  | some tag_name =>
    some ((splitOnChar '-' tag_name).headD [], (splitOnChar '-' tag_name).getLastD [])

/-- The dict comprehension `{idx: tag for tag, idx in tags.items()}` of
`get_chunks`, as a partial map: for duplicate ids the later entry wins,
as in a Python dict built in iteration order. -/
def idxToTag (tags : List (List Char × Nat)) : Nat → Option (List Char) :=
  fun i => ((tags.map (fun p => (p.2, p.1))).reverse).lookup i

/-- The loop of `get_chunks`: scan the tag ids left to right carrying the
pair of locals `(chunk_type, chunk_start)` (both `None` or both set, hence
one `Option`), accumulating closed chunks; after the scan a still-open
chunk is closed at the current index, which is `len(seq)` at the top call. -/
def getChunksAux (f : Nat → Option (List Char)) (d : Nat) :
    List Nat → Nat → Option (List Char × Nat) → Option (List Chunk)
  | [], _, none => some []
  | [], i, some (τ, s) => some [(τ, s, i)]
  | tok :: rest, i, st =>
    if tok = d then
      match st with
      | none => getChunksAux f d rest (i + 1) none
      | some (τ, s) =>
        match getChunksAux f d rest (i + 1) none with
        | none => none
        | some tail => some ((τ, s, i) :: tail)
    else
      match get_chunk_type tok f with
      | none => none
      | some (cls, typ) =>
        match st with
        | none => getChunksAux f d rest (i + 1) (some (typ, i))
        | some (τ, s) =>
          if typ ≠ τ ∨ cls = ['B'] then
            match getChunksAux f d rest (i + 1) (some (typ, i)) with
            | none => none
            | some tail => some ((τ, s, i) :: tail)
          else
            getChunksAux f d rest (i + 1) (some (τ, s))

/-- `get_chunks(seq, tags)`: `default = tags[NONE]` (KeyError becomes
`none`), then the state-machine scan starting at index 0 with no open
chunk. -/
def get_chunks (seq : List Nat) (tags : List (List Char × Nat)) :
    Option (List Chunk) :=
  match tags.lookup NONE with
  | none => none
  | some default => getChunksAux (idxToTag tags) default seq 0 none

/-- Index `j` lies in the half-open span of some chunk of the list. -/
def covers (chunks : List Chunk) (j : Nat) : Prop :=
  ∃ c ∈ chunks, c.2.1 ≤ j ∧ j < c.2.2

/-- Chunks starting at or after `i`, each with a positive span, each
ending at or before the next one starts. -/
def WFfrom : Nat → List Chunk → Prop
  | _, [] => True
  | i, (_, s, e) :: rest => i ≤ s ∧ s < e ∧ WFfrom e rest

/-- Well-formed chunk-list input for the round-trip claim: spans inside
`[i, n)`, positive, non-overlapping and increasing, and every entity type
free of the `'-'` separator. -/
def ChunksWF : Nat → Nat → List Chunk → Prop
  | i, n, [] => i ≤ n
  | i, n, (τ, s, e) :: rest => i ≤ s ∧ s < e ∧ '-' ∉ τ ∧ ChunksWF e n rest

instance ChunksWF.instDecidable :
    (i n : Nat) → (chunks : List Chunk) → Decidable (ChunksWF i n chunks)
  | i, n, [] => inferInstanceAs (Decidable (i ≤ n))
  | i, n, (τ, s, e) :: rest =>
    haveI := ChunksWF.instDecidable e n rest
    inferInstanceAs (Decidable (i ≤ s ∧ s < e ∧ '-' ∉ τ ∧ ChunksWF e n rest))

/-- Encode a chunk list as a tag-id sequence over `[i, n)`: the default id
`d` between chunks, `bId τ` (the id of `B-τ`) at each chunk start and
`iId τ` (the id of `I-τ`) inside each chunk. -/
def encSeq (bId iId : List Char → Nat) (d : Nat) : Nat → Nat → List Chunk → List Nat
  | i, n, [] => List.replicate (n - i) d
  | i, n, (τ, s, e) :: rest =>
    List.replicate (s - i) d ++
      bId τ :: (List.replicate (e - s - 1) (iId τ) ++ encSeq bId iId d e n rest)

/-! ### Claim C1: single-level padding postcondition -/

theorem padOne_length (p : α) (m : Nat) (s : List α) : (padOne p m s).length = m := by
  unfold padOne
  by_cases h : s.length < m
  · simp [h, List.length_take]
    omega
  · simp [h, List.length_take]
    omega

theorem padOne_of_le (p : α) {m : Nat} {s : List α} (h : s.length ≤ m) :
    padOne p m s = s ++ List.replicate (m - s.length) p := by
  unfold padOne
  by_cases hlt : s.length < m
  · simp [hlt, List.take_of_length_le h]
  · have hm : s.length = m := le_antisymm h (not_lt.mp hlt)
    simp [hlt, List.take_of_length_le h, hm]

theorem padOne_of_gt (p : α) {m : Nat} {s : List α} (h : m < s.length) :
    padOne p m s = s.take m := by
  unfold padOne
  simp [Nat.not_lt.mpr (le_of_lt h)]

/-- C1. Single-level padding postcondition: for every non-empty list of
sequences, pad value `p` and target length `m`, `_pad_sequences` returns for
each input sequence `s` a sequence of exactly `m` elements — when
`s.length ≤ m` the result is `s` followed by `m - s.length` copies of `p`,
and when `m < s.length` it is the first `m` elements of `s`; the reported
length for each `s` is `min s.length m`. -/
theorem pad_single_level_spec (sequences : List (List α)) (p : α) (m : Nat)
    (hne : sequences ≠ []) :
    List.Forall₂
      (fun s t => t.length = m ∧
        (s.length ≤ m → t = s ++ List.replicate (m - s.length) p) ∧
        (m < s.length → t = s.take m))
      sequences (_pad_sequences p m sequences).1 ∧
    List.Forall₂ (fun s l => l = min s.length m)
      sequences (_pad_sequences p m sequences).2 := by
  constructor
  · unfold _pad_sequences
    simp only [List.forall₂_map_right_iff]
    rw [List.forall₂_same]
    intro s _
    exact ⟨padOne_length p m s, fun h => padOne_of_le p h, fun h => padOne_of_gt p h⟩
  · unfold _pad_sequences
    simp only [List.forall₂_map_right_iff]
    rw [List.forall₂_same]
    intro s _
    rfl

theorem pad_single_level_spec_witness :
    List.Forall₂
      (fun s t => t.length = 3 ∧
        (s.length ≤ 3 → t = s ++ List.replicate (3 - s.length) 9) ∧
        (3 < s.length → t = s.take 3))
      [[1, 2], [5, 6, 7, 8]] (_pad_sequences 9 3 [[1, 2], [5, 6, 7, 8]]).1 ∧
    List.Forall₂ (fun s l => l = min s.length 3)
      [[1, 2], [5, 6, 7, 8]] (_pad_sequences 9 3 [[1, 2], [5, 6, 7, 8]]).2 :=
  pad_single_level_spec [[1, 2], [5, 6, 7, 8]] 9 3 (by decide)

/-! ### Claim C2: chunk extractor transitions and boundaries -/

theorem getChunksAux_all_default (f : Nat → Option (List Char)) (d : Nat) :
    ∀ (seq : List Nat) (i : Nat), (∀ t ∈ seq, t = d) →
      getChunksAux f d seq i none = some [] := by
  intro seq
  induction seq with
  | nil => intro i _; rfl
  | cons tok rest ih =>
    intro i h
    have htok : tok = d := h tok (List.mem_cons_self tok rest)
    simp only [getChunksAux, if_pos htok]
    exact ih (i + 1) (fun t ht => h t (List.mem_cons_of_mem tok ht))

/-- C2. ChunkExtractor transitions and boundaries: (1) a sequence whose ids
are all the default `'O'` id yields the empty chunk list; (2) with a chunk
`(τ, s)` open at position `i`, a non-default id decoding to `(cls, typ)`
with `typ ≠ τ` or `cls = "B"` closes the open chunk at end index `i` and
opens a new chunk `(typ, i)`; (3) a chunk still open when the scan ends is
closed at the current index, which is `len(seq)` at the top-level call. -/
theorem chunk_transitions_spec :
    (∀ (seq : List Nat) (tags : List (List Char × Nat)) (d : Nat),
      tags.lookup NONE = some d → (∀ t ∈ seq, t = d) →
      get_chunks seq tags = some []) ∧
    (∀ (f : Nat → Option (List Char)) (d tok : Nat) (rest : List Nat) (i : Nat)
      (τ s : _) (cls typ : List Char),
      tok ≠ d → get_chunk_type tok f = some (cls, typ) → (typ ≠ τ ∨ cls = ['B']) →
      getChunksAux f d (tok :: rest) i (some (τ, s)) =
        (getChunksAux f d rest (i + 1) (some (typ, i))).map (fun tail => (τ, s, i) :: tail)) ∧
    (∀ (f : Nat → Option (List Char)) (d n : Nat) (τ : List Char) (s : Nat),
      getChunksAux f d [] n (some (τ, s)) = some [(τ, s, n)]) := by
  refine ⟨?_, ?_, ?_⟩
  · intro seq tags d hd hall
    unfold get_chunks
    rw [hd]
    exact getChunksAux_all_default (idxToTag tags) d seq 0 hall
  · intro f d tok rest i τ s cls typ htok hdec hcond
    simp only [getChunksAux, if_neg htok, hdec, if_pos hcond]
    cases getChunksAux f d rest (i + 1) (some (typ, i)) <;> rfl
  · intro f d n τ s
    rfl

theorem chunk_transitions_spec_witness :
    get_chunks [0, 0, 0] [(NONE, 0), (['B', '-', 'P'], 1)] = some [] ∧
    getChunksAux (idxToTag [(NONE, 0), (['B', '-', 'P'], 1)]) 0 [1] 1 (some (['P'], 0)) =
      (getChunksAux (idxToTag [(NONE, 0), (['B', '-', 'P'], 1)]) 0 [] 2
        (some (['P'], 1))).map (fun tail => (['P'], 0, 1) :: tail) ∧
    getChunksAux (idxToTag [(NONE, 0), (['B', '-', 'P'], 1)]) 0 [] 3 (some (['P'], 0)) =
      some [(['P'], 0, 3)] :=
  ⟨chunk_transitions_spec.1 [0, 0, 0] [(NONE, 0), (['B', '-', 'P'], 1)] 0 (by decide)
      (by decide),
   chunk_transitions_spec.2.1 (idxToTag [(NONE, 0), (['B', '-', 'P'], 1)]) 0 1 [] 1
      (['P']) 0 (['B']) (['P']) (by decide) (by decide) (Or.inr rfl),
   chunk_transitions_spec.2.2 (idxToTag [(NONE, 0), (['B', '-', 'P'], 1)]) 0 3 (['P']) 0⟩

/-! ### Step lemmas for the chunk state machine -/

theorem getChunksAux_step_default_none (f : Nat → Option (List Char)) (d tok : Nat)
    (rest : List Nat) (i : Nat) (htok : tok = d) :
    getChunksAux f d (tok :: rest) i none = getChunksAux f d rest (i + 1) none := by
  simp [getChunksAux, htok]

theorem getChunksAux_step_default_close (f : Nat → Option (List Char)) (d tok : Nat)
    (rest : List Nat) (i : Nat) (τ : List Char) (s : Nat) (htok : tok = d) :
    getChunksAux f d (tok :: rest) i (some (τ, s)) =
      match getChunksAux f d rest (i + 1) none with
      | none => none
      | some tail => some ((τ, s, i) :: tail) := by
  simp [getChunksAux, htok]

theorem getChunksAux_step_decode_fail (f : Nat → Option (List Char)) (d tok : Nat)
    (rest : List Nat) (i : Nat) (st : Option (List Char × Nat))
    (htok : ¬tok = d) (hdec : get_chunk_type tok f = none) :
    getChunksAux f d (tok :: rest) i st = none := by
  simp [getChunksAux, htok, hdec]

theorem getChunksAux_step_open (f : Nat → Option (List Char)) (d tok : Nat)
    (rest : List Nat) (i : Nat) (cls typ : List Char)
    (htok : ¬tok = d) (hdec : get_chunk_type tok f = some (cls, typ)) :
    getChunksAux f d (tok :: rest) i none =
      getChunksAux f d rest (i + 1) (some (typ, i)) := by
  simp [getChunksAux, htok, hdec]

theorem getChunksAux_step_close_reopen (f : Nat → Option (List Char)) (d tok : Nat)
    (rest : List Nat) (i : Nat) (cls typ τ : List Char) (s : Nat)
    (htok : ¬tok = d) (hdec : get_chunk_type tok f = some (cls, typ))
    (hcond : typ ≠ τ ∨ cls = ['B']) :
    getChunksAux f d (tok :: rest) i (some (τ, s)) =
      match getChunksAux f d rest (i + 1) (some (typ, i)) with
      | none => none
      | some tail => some ((τ, s, i) :: tail) := by
  simp only [getChunksAux, if_neg htok, hdec, if_pos hcond]

theorem getChunksAux_step_extend (f : Nat → Option (List Char)) (d tok : Nat)
    (rest : List Nat) (i : Nat) (cls typ τ : List Char) (s : Nat)
    (htok : ¬tok = d) (hdec : get_chunk_type tok f = some (cls, typ))
    (hcond : ¬(typ ≠ τ ∨ cls = ['B'])) :
    getChunksAux f d (tok :: rest) i (some (τ, s)) =
      getChunksAux f d rest (i + 1) (some (τ, s)) := by
  simp only [getChunksAux, if_neg htok, hdec, if_neg hcond]

/-! ### Claim C5: chunk list invariant -/

theorem WFfrom_mono {i j : Nat} (hij : i ≤ j) :
    ∀ {chunks : List Chunk}, WFfrom j chunks → WFfrom i chunks
  | [], _ => trivial
  | (τ, s, e) :: rest, h => ⟨le_trans hij h.1, h.2.1, h.2.2⟩

theorem WFfrom_mem {i : Nat} :
    ∀ {chunks : List Chunk}, WFfrom i chunks →
      ∀ c ∈ chunks, i ≤ c.2.1 ∧ c.2.1 < c.2.2 := by
  intro chunks
  induction chunks generalizing i with
  | nil => intro _ c hc; exact absurd hc (List.not_mem_nil c)
  | cons hd tl ih =>
    obtain ⟨τ, s, e⟩ := hd
    intro h c hc
    rcases List.mem_cons.mp hc with rfl | hmem
    · exact ⟨h.1, h.2.1⟩
    · have := ih (WFfrom_mono (le_of_lt (lt_of_le_of_lt h.1 h.2.1)) h.2.2) c hmem
      exact this

theorem WFfrom_pairwise {i : Nat} :
    ∀ {chunks : List Chunk}, WFfrom i chunks →
      List.Pairwise (fun a b : Chunk => a.2.2 ≤ b.2.1) chunks := by
  intro chunks
  induction chunks generalizing i with
  | nil => intro _; exact List.Pairwise.nil
  | cons hd tl ih =>
    obtain ⟨τ, s, e⟩ := hd
    intro h
    refine List.Pairwise.cons ?_ (ih h.2.2)
    intro c hc
    exact (WFfrom_mem h.2.2 c hc).1

/-- Well-formedness of the state machine's output: with no open chunk the
result is a chain starting at or after `i`; with chunk `(τ, s)` open and
`s < i`, the result starts with `(τ, s, e)` for some close index `e ≥ i`. -/
theorem getChunksAux_wf (f : Nat → Option (List Char)) (d : Nat) :
    ∀ (seq : List Nat) (i : Nat) (st : Option (List Char × Nat)) (chunks : List Chunk),
      getChunksAux f d seq i st = some chunks →
      (st = none → WFfrom i chunks) ∧
      (∀ τ s, st = some (τ, s) → s < i →
        ∃ e rest, chunks = (τ, s, e) :: rest ∧ i ≤ e ∧ s < e ∧ WFfrom e rest) := by
  intro seq
  induction seq with
  | nil =>
    intro i st chunks h
    cases st with
    | none =>
      simp only [getChunksAux, Option.some.injEq] at h
      subst h
      exact ⟨fun _ => trivial, fun τ s hst => Option.noConfusion hst⟩
    | some p =>
      obtain ⟨τ, s⟩ := p
      simp only [getChunksAux, Option.some.injEq] at h
      subst h
      refine ⟨fun hst => Option.noConfusion hst, ?_⟩
      intro τ' s' hst hsi
      injection hst with hp
      injection hp with h1 h2
      subst h1; subst h2
      exact ⟨i, [], rfl, le_refl i, hsi, trivial⟩
  | cons tok rest ih =>
    intro i st chunks h
    by_cases htok : tok = d
    · cases st with
      | none =>
        rw [getChunksAux_step_default_none f d tok rest i htok] at h
        refine ⟨fun _ => ?_, fun τ s hst => Option.noConfusion hst⟩
        exact WFfrom_mono (Nat.le_succ i) ((ih (i + 1) none chunks h).1 rfl)
      | some p =>
        obtain ⟨τ, s⟩ := p
        rw [getChunksAux_step_default_close f d tok rest i τ s htok] at h
        cases hrec : getChunksAux f d rest (i + 1) none with
        | none => rw [hrec] at h; cases h
        | some tail =>
          rw [hrec] at h
          simp only [Option.some.injEq] at h
          subst h
          refine ⟨fun hst => Option.noConfusion hst, ?_⟩
          intro τ' s' hst hsi
          injection hst with hp
          injection hp with h1 h2
          subst h1; subst h2
          exact ⟨i, tail, rfl, le_refl i, hsi,
            WFfrom_mono (Nat.le_succ i) ((ih (i + 1) none tail hrec).1 rfl)⟩
    · cases hdec : get_chunk_type tok f with
      | none =>
        rw [getChunksAux_step_decode_fail f d tok rest i st htok hdec] at h
        cases h
      | some q =>
        obtain ⟨cls, typ⟩ := q
        cases st with
        | none =>
          rw [getChunksAux_step_open f d tok rest i cls typ htok hdec] at h
          obtain ⟨e, r, rfl, hie, hlt, hwf⟩ :=
            (ih (i + 1) (some (typ, i)) chunks h).2 typ i rfl (Nat.lt_succ_self i)
          exact ⟨fun _ => ⟨le_refl i, hlt, hwf⟩, fun τ s hst => Option.noConfusion hst⟩
        | some p =>
          obtain ⟨τ, s⟩ := p
          by_cases hcond : typ ≠ τ ∨ cls = ['B']
          · rw [getChunksAux_step_close_reopen f d tok rest i cls typ τ s htok hdec hcond] at h
            cases hrec : getChunksAux f d rest (i + 1) (some (typ, i)) with
            | none => rw [hrec] at h; cases h
            | some tail =>
              rw [hrec] at h
              simp only [Option.some.injEq] at h
              subst h
              obtain ⟨e', r', rfl, hie', hlt', hwf'⟩ :=
                (ih (i + 1) (some (typ, i)) tail hrec).2 typ i rfl (Nat.lt_succ_self i)
              refine ⟨fun hst => Option.noConfusion hst, ?_⟩
              intro τ' s' hst hsi
              injection hst with hp
              injection hp with h1 h2
              subst h1; subst h2
              exact ⟨i, (typ, i, e') :: r', rfl, le_refl i, hsi, le_refl i, hlt', hwf'⟩
          · rw [getChunksAux_step_extend f d tok rest i cls typ τ s htok hdec hcond] at h
            refine ⟨fun hst => Option.noConfusion hst, ?_⟩
            intro τ' s' hst hsi
            injection hst with hp
            injection hp with h1 h2
            subst h1; subst h2
            obtain ⟨e, r, rfl, hie, hlt, hwf⟩ :=
              (ih (i + 1) (some (τ, s)) chunks h).2 τ s rfl (Nat.lt_succ_of_lt hsi)
            exact ⟨e, r, rfl, le_trans (Nat.le_succ i) hie, hlt, hwf⟩

theorem covers_nil (j : Nat) : ¬ covers [] j := by
  intro h
  obtain ⟨c, hc, _⟩ := h
  exact absurd hc (List.not_mem_nil c)

theorem covers_cons {c : Chunk} {rest : List Chunk} {j : Nat} :
    covers (c :: rest) j ↔ (c.2.1 ≤ j ∧ j < c.2.2) ∨ covers rest j := by
  unfold covers
  constructor
  · rintro ⟨c', hc', hle, hlt⟩
    rcases List.mem_cons.mp hc' with rfl | hmem
    · exact Or.inl ⟨hle, hlt⟩
    · exact Or.inr ⟨c', hmem, hle, hlt⟩
  · rintro (⟨hle, hlt⟩ | ⟨c', hmem, hle, hlt⟩)
    · exact ⟨c, List.mem_cons_self c rest, hle, hlt⟩
    · exact ⟨c', List.mem_cons_of_mem c hmem, hle, hlt⟩

/-- Coverage of the state machine's output: an index in the scanned region
is covered by some produced chunk exactly when its tag id is not the
default id. -/
theorem getChunksAux_cover (f : Nat → Option (List Char)) (d : Nat) :
    ∀ (seq : List Nat) (i : Nat) (st : Option (List Char × Nat)) (chunks : List Chunk),
      (∀ τ s, st = some (τ, s) → s < i) →
      getChunksAux f d seq i st = some chunks →
      ∀ j, i ≤ j → j < i + seq.length →
        (covers chunks j ↔ seq.getD (j - i) d ≠ d) := by
  intro seq
  induction seq with
  | nil =>
    intro i st chunks _ _ j hij hjlt
    simp only [List.length_nil, Nat.add_zero] at hjlt
    exact absurd hij (by omega)
  | cons tok rest ih =>
    intro i st chunks hst h j hij hjlt
    simp only [List.length_cons] at hjlt
    by_cases hji : j = i
    · subst hji
      have hz : j - j = 0 := Nat.sub_self j
      rw [hz, List.getD_cons_zero]
      by_cases htok : tok = d
      · simp only [htok, ne_eq, not_true_eq_false, iff_false]
        cases st with
        | none =>
          rw [getChunksAux_step_default_none f d tok rest j htok] at h
          have hwf := (getChunksAux_wf f d rest (j + 1) none chunks h).1 rfl
          rintro ⟨c, hc, hle, hlt⟩
          have := (WFfrom_mem hwf c hc).1
          omega
        | some p =>
          obtain ⟨τ, s⟩ := p
          rw [getChunksAux_step_default_close f d tok rest j τ s htok] at h
          cases hrec : getChunksAux f d rest (j + 1) none with
          | none => rw [hrec] at h; cases h
          | some tail =>
            rw [hrec] at h
            simp only [Option.some.injEq] at h
            subst h
            have hwf := (getChunksAux_wf f d rest (j + 1) none tail hrec).1 rfl
            intro hcov
            rcases covers_cons.mp hcov with ⟨_, hlt⟩ | ⟨c, hc, hle, hlt⟩
            · exact absurd hlt (Nat.lt_irrefl j)
            · have := (WFfrom_mem hwf c hc).1
              omega
      · simp only [ne_eq, htok, not_false_iff, iff_true]
        cases hdec : get_chunk_type tok f with
        | none =>
          rw [getChunksAux_step_decode_fail f d tok rest j st htok hdec] at h
          cases h
        | some q =>
          obtain ⟨cls, typ⟩ := q
          cases st with
          | none =>
            rw [getChunksAux_step_open f d tok rest j cls typ htok hdec] at h
            obtain ⟨e, r, rfl, hie, hlt, hwf⟩ :=
              (getChunksAux_wf f d rest (j + 1) (some (typ, j)) _ h).2 typ j rfl
                (Nat.lt_succ_self j)
            exact ⟨(typ, j, e), List.mem_cons_self _ _, le_refl j, by show j < e; omega⟩
          | some p =>
            obtain ⟨τ, s⟩ := p
            have hsj : s < j := hst τ s rfl
            by_cases hcond : typ ≠ τ ∨ cls = ['B']
            · rw [getChunksAux_step_close_reopen f d tok rest j cls typ τ s htok hdec hcond] at h
              cases hrec : getChunksAux f d rest (j + 1) (some (typ, j)) with
              | none => rw [hrec] at h; cases h
              | some tail =>
                rw [hrec] at h
                simp only [Option.some.injEq] at h
                subst h
                obtain ⟨e', r', rfl, hie', hlt', hwf'⟩ :=
                  (getChunksAux_wf f d rest (j + 1) (some (typ, j)) tail hrec).2 typ j rfl
                    (Nat.lt_succ_self j)
                exact ⟨(typ, j, e'), List.mem_cons_of_mem _ (List.mem_cons_self _ _),
                  le_refl j, by show j < e'; omega⟩
            · rw [getChunksAux_step_extend f d tok rest j cls typ τ s htok hdec hcond] at h
              obtain ⟨e, r, rfl, hie, hlt, hwf⟩ :=
                (getChunksAux_wf f d rest (j + 1) (some (τ, s)) _ h).2 τ s rfl (by omega)
              exact ⟨(τ, s, e), List.mem_cons_self _ _, by show s ≤ j; omega,
                by show j < e; omega⟩
    · have hij1 : i + 1 ≤ j := by omega
      have harith : j - i = (j - (i + 1)) + 1 := by omega
      rw [harith, List.getD_cons_succ]
      by_cases htok : tok = d
      · cases st with
        | none =>
          rw [getChunksAux_step_default_none f d tok rest i htok] at h
          exact ih (i + 1) none chunks (fun τ s hq => Option.noConfusion hq) h j hij1 (by omega)
        | some p =>
          obtain ⟨τ, s⟩ := p
          rw [getChunksAux_step_default_close f d tok rest i τ s htok] at h
          cases hrec : getChunksAux f d rest (i + 1) none with
          | none => rw [hrec] at h; cases h
          | some tail =>
            rw [hrec] at h
            simp only [Option.some.injEq] at h
            subst h
            rw [covers_cons]
            have hnot : ¬((τ, s, i).2.1 ≤ j ∧ j < (τ, s, i).2.2) := by
              simp only []
              omega
            rw [or_iff_right hnot]
            exact ih (i + 1) none tail (fun τ' s' hq => Option.noConfusion hq) hrec j hij1
              (by omega)
      · cases hdec : get_chunk_type tok f with
        | none =>
          rw [getChunksAux_step_decode_fail f d tok rest i st htok hdec] at h
          cases h
        | some q =>
          obtain ⟨cls, typ⟩ := q
          cases st with
          | none =>
            rw [getChunksAux_step_open f d tok rest i cls typ htok hdec] at h
            refine ih (i + 1) (some (typ, i)) chunks ?_ h j hij1 (by omega)
            intro τ' s' hq
            injection hq with hp
            injection hp with h1 h2
            omega
          | some p =>
            obtain ⟨τ, s⟩ := p
            have hsi : s < i := hst τ s rfl
            by_cases hcond : typ ≠ τ ∨ cls = ['B']
            · rw [getChunksAux_step_close_reopen f d tok rest i cls typ τ s htok hdec hcond] at h
              cases hrec : getChunksAux f d rest (i + 1) (some (typ, i)) with
              | none => rw [hrec] at h; cases h
              | some tail =>
                rw [hrec] at h
                simp only [Option.some.injEq] at h
                subst h
                rw [covers_cons]
                have hnot : ¬((τ, s, i).2.1 ≤ j ∧ j < (τ, s, i).2.2) := by
                  simp only []
                  omega
                rw [or_iff_right hnot]
                refine ih (i + 1) (some (typ, i)) tail ?_ hrec j hij1 (by omega)
                intro τ' s' hq
                injection hq with hp
                injection hp with h1 h2
                omega
            · rw [getChunksAux_step_extend f d tok rest i cls typ τ s htok hdec hcond] at h
              refine ih (i + 1) (some (τ, s)) chunks ?_ h j hij1 (by omega)
              intro τ' s' hq
              injection hq with hp
              injection hp with h1 h2
              omega

/-- C5. Chunk list invariant: whenever `get_chunks` succeeds, every chunk
has `start < end`, the spans are pairwise non-overlapping in start order,
and an index below `len(seq)` is covered by some chunk exactly when its
tag id differs from the default `'O'` id. -/
theorem chunk_invariants_spec (seq : List Nat) (tags : List (List Char × Nat))
    (chunks : List Chunk) (d : Nat)
    (hd : tags.lookup NONE = some d)
    (h : get_chunks seq tags = some chunks) :
    (∀ c ∈ chunks, c.2.1 < c.2.2) ∧
    List.Pairwise (fun a b : Chunk => a.2.2 ≤ b.2.1) chunks ∧
    (∀ j, j < seq.length → (covers chunks j ↔ seq.getD j d ≠ d)) := by
  unfold get_chunks at h
  rw [hd] at h
  have hwf := (getChunksAux_wf (idxToTag tags) d seq 0 none chunks h).1 rfl
  refine ⟨fun c hc => (WFfrom_mem hwf c hc).2, WFfrom_pairwise hwf, ?_⟩
  intro j hj
  have := getChunksAux_cover (idxToTag tags) d seq 0 none chunks
    (fun τ s hq => Option.noConfusion hq) h j (Nat.zero_le j) (by omega)
  simpa using this

theorem chunk_invariants_spec_witness :
    (∀ c ∈ [((['P'], 0, 2) : Chunk), (['Q'], 3, 4)], c.2.1 < c.2.2) ∧
    List.Pairwise (fun a b : Chunk => a.2.2 ≤ b.2.1)
      [((['P'], 0, 2) : Chunk), (['Q'], 3, 4)] ∧
    (∀ j, j < [1, 2, 0, 3].length →
      (covers [((['P'], 0, 2) : Chunk), (['Q'], 3, 4)] j ↔
        [1, 2, 0, 3].getD j 0 ≠ 0)) :=
  chunk_invariants_spec [1, 2, 0, 3]
    [(NONE, 0), (['B', '-', 'P'], 1), (['I', '-', 'P'], 2), (['B', '-', 'Q'], 3)]
    [(['P'], 0, 2), (['Q'], 3, 4)] 0 (by decide) (by decide)

/-! ### Claim C3: chunk extractor round-trip -/

theorem splitOnChar_not_mem {c : Char} : ∀ {l : List Char}, c ∉ l → splitOnChar c l = [l]
  | [], _ => rfl
  | x :: xs, h => by
    have hx : ¬x = c := fun hxc => h (hxc ▸ List.mem_cons_self x xs)
    have hxs : c ∉ xs := fun hm => h (List.mem_cons_of_mem x hm)
    simp only [splitOnChar, if_neg hx, splitOnChar_not_mem hxs]

theorem splitOnChar_prefixed {pfx : Char} {τ : List Char}
    (hpfx : pfx ≠ '-') (hdash : '-' ∉ τ) :
    splitOnChar '-' (pfx :: '-' :: τ) = [[pfx], τ] := by
  simp [splitOnChar, hpfx, splitOnChar_not_mem hdash]

theorem get_chunk_type_prefixed (f : Nat → Option (List Char)) {pfx : Char}
    {τ : List Char} (tok : Nat) (hf : f tok = some (pfx :: '-' :: τ))
    (hpfx : pfx ≠ '-') (hdash : '-' ∉ τ) :
    get_chunk_type tok f = some ([pfx], τ) := by
  simp only [get_chunk_type, hf]
  rw [splitOnChar_prefixed hpfx hdash]
  rfl

/-- A run of default ids with no chunk open just advances the index. -/
theorem getChunksAux_run_default (f : Nat → Option (List Char)) (d : Nat) :
    ∀ (k : Nat) (rest : List Nat) (i : Nat),
      getChunksAux f d (List.replicate k d ++ rest) i none =
        getChunksAux f d rest (i + k) none := by
  intro k
  induction k with
  | zero => intro rest i; simp
  | succ k ih =>
    intro rest i
    rw [List.replicate_succ, List.cons_append,
      getChunksAux_step_default_none f d d _ i rfl, ih]
    congr 1
    omega

/-- A run of same-type continuation (`I-`) ids keeps the open chunk open
and advances the index. -/
theorem getChunksAux_run_icont (f : Nat → Option (List Char)) (d : Nat)
    (τ : List Char) (itok : Nat) (hne : ¬itok = d)
    (hdec : get_chunk_type itok f = some (['I'], τ)) :
    ∀ (k : Nat) (rest : List Nat) (i s : Nat),
      getChunksAux f d (List.replicate k itok ++ rest) i (some (τ, s)) =
        getChunksAux f d rest (i + k) (some (τ, s)) := by
  intro k
  induction k with
  | zero => intro rest i s; simp
  | succ k ih =>
    intro rest i s
    have hcond : ¬(τ ≠ τ ∨ (['I'] : List Char) = ['B']) := by
      simp
    rw [List.replicate_succ, List.cons_append,
      getChunksAux_step_extend f d itok _ i (['I']) τ τ s hne hdec hcond, ih]
    congr 1
    omega

/-- Scanning the encoding of a well-formed chunk list with a chunk
`(τ, s)` open (`s` before the scan region) closes that chunk at the region
start and then recovers the encoded chunks. -/
theorem encSeq_open (f : Nat → Option (List Char)) (d : Nat)
    (bId iId : List Char → Nat) :
    ∀ (chunks : List Chunk) (n : Nat) (τ : List Char) (s i : Nat),
      s < i → ChunksWF i n chunks →
      (∀ τ' ∈ chunks.map (fun c : Chunk => c.1),
        get_chunk_type (bId τ') f = some (['B'], τ') ∧
        get_chunk_type (iId τ') f = some (['I'], τ') ∧ ¬bId τ' = d ∧ ¬iId τ' = d) →
      getChunksAux f d (encSeq bId iId d i n chunks) i (some (τ, s)) =
        some ((τ, s, i) :: chunks) := by
  intro chunks
  induction chunks with
  | nil =>
    intro n τ s i hsi _ _
    show getChunksAux f d (List.replicate (n - i) d) i (some (τ, s)) = some [(τ, s, i)]
    cases hk : n - i with
    | zero => rfl
    | succ k =>
      rw [List.replicate_succ, getChunksAux_step_default_close f d d _ i τ s rfl]
      have hrun := getChunksAux_run_default f d k [] (i + 1)
      rw [List.append_nil] at hrun
      rw [hrun]
      rfl
  | cons c rest' ih =>
    obtain ⟨τ', s', e'⟩ := c
    intro n τ s i hsi hwf hdec
    obtain ⟨his', hs'e', hdash', hwf'⟩ := hwf
    obtain ⟨hBdec, hIdec, hBne, hIne⟩ :=
      hdec τ' (by simp)
    have hdec' : ∀ τ'' ∈ rest'.map (fun c : Chunk => c.1),
        get_chunk_type (bId τ'') f = some (['B'], τ'') ∧
        get_chunk_type (iId τ'') f = some (['I'], τ'') ∧ ¬bId τ'' = d ∧ ¬iId τ'' = d := by
      intro τ'' hm
      exact hdec τ'' (by simp [hm])
    show getChunksAux f d
      (List.replicate (s' - i) d ++
        bId τ' :: (List.replicate (e' - s' - 1) (iId τ') ++ encSeq bId iId d e' n rest'))
      i (some (τ, s)) = some ((τ, s, i) :: (τ', s', e') :: rest')
    rcases Nat.eq_or_lt_of_le his' with heq | hlt
    · subst heq
      have hz : i - i = 0 := Nat.sub_self i
      rw [hz, List.replicate, List.nil_append]
      rw [getChunksAux_step_close_reopen f d (bId τ') _ i (['B']) τ' τ s hBne hBdec
        (Or.inr rfl)]
      rw [getChunksAux_run_icont f d τ' (iId τ') hIne hIdec (e' - i - 1) _ (i + 1) i]
      have he : i + 1 + (e' - i - 1) = e' := by omega
      rw [he, ih n τ' i e' hs'e' hwf' hdec']
    · obtain ⟨k, hk⟩ : ∃ k, s' - i = k + 1 := ⟨s' - i - 1, by omega⟩
      rw [hk, List.replicate_succ, List.cons_append]
      rw [getChunksAux_step_default_close f d d _ i τ s rfl]
      rw [getChunksAux_run_default f d k _ (i + 1)]
      have hs' : i + 1 + k = s' := by omega
      rw [hs']
      rw [getChunksAux_step_open f d (bId τ') _ s' (['B']) τ' hBne hBdec]
      rw [getChunksAux_run_icont f d τ' (iId τ') hIne hIdec (e' - s' - 1) _ (s' + 1) s']
      have he : s' + 1 + (e' - s' - 1) = e' := by omega
      rw [he, ih n τ' s' e' hs'e' hwf' hdec']

/-- Scanning the encoding of a well-formed chunk list with no open chunk
recovers exactly the encoded chunks. -/
theorem encSeq_closed (f : Nat → Option (List Char)) (d : Nat)
    (bId iId : List Char → Nat) (chunks : List Chunk) (n i : Nat)
    (hwf : ChunksWF i n chunks)
    (hdec : ∀ τ' ∈ chunks.map (fun c : Chunk => c.1),
      get_chunk_type (bId τ') f = some (['B'], τ') ∧
      get_chunk_type (iId τ') f = some (['I'], τ') ∧ ¬bId τ' = d ∧ ¬iId τ' = d) :
    getChunksAux f d (encSeq bId iId d i n chunks) i none = some chunks := by
  cases chunks with
  | nil =>
    show getChunksAux f d (List.replicate (n - i) d) i none = some []
    have hrun := getChunksAux_run_default f d (n - i) [] i
    rw [List.append_nil] at hrun
    rw [hrun]
    rfl
  | cons c rest' =>
    obtain ⟨τ', s', e'⟩ := c
    obtain ⟨his', hs'e', hdash', hwf'⟩ := hwf
    obtain ⟨hBdec, hIdec, hBne, hIne⟩ := hdec τ' (by simp)
    have hdec' : ∀ τ'' ∈ rest'.map (fun c : Chunk => c.1),
        get_chunk_type (bId τ'') f = some (['B'], τ'') ∧
        get_chunk_type (iId τ'') f = some (['I'], τ'') ∧ ¬bId τ'' = d ∧ ¬iId τ'' = d := by
      intro τ'' hm
      exact hdec τ'' (by simp [hm])
    show getChunksAux f d
      (List.replicate (s' - i) d ++
        bId τ' :: (List.replicate (e' - s' - 1) (iId τ') ++ encSeq bId iId d e' n rest'))
      i none = some ((τ', s', e') :: rest')
    rw [getChunksAux_run_default f d (s' - i) _ i]
    have hs' : i + (s' - i) = s' := by omega
    rw [hs']
    rw [getChunksAux_step_open f d (bId τ') _ s' (['B']) τ' hBne hBdec]
    rw [getChunksAux_run_icont f d τ' (iId τ') hIne hIdec (e' - s' - 1) _ (s' + 1) s']
    have he : s' + 1 + (e' - s' - 1) = e' := by omega
    rw [he, encSeq_open f d bId iId rest' n τ' s' e' hs'e' hwf' hdec']

theorem ChunksWF_types_dashfree :
    ∀ {i n : Nat} {chunks : List Chunk}, ChunksWF i n chunks →
      ∀ τ ∈ chunks.map (fun c : Chunk => c.1), '-' ∉ τ := by
  intro i n chunks
  induction chunks generalizing i with
  | nil => intro _ τ hm; simp at hm
  | cons c rest ih =>
    obtain ⟨τ', s', e'⟩ := c
    intro h τ hm
    rcases List.mem_cons.mp hm with rfl | hmem
    · exact h.2.2.1
    · exact ih h.2.2.2 τ hmem

/-- C3 (amended): the round-trip holds for chunk lists whose entity types
do not contain the `'-'` separator. Encoding a well-formed chunk list
(`start < end`, non-overlapping, increasing, types `'-'`-free) with `B-`
ids at chunk starts, `I-` ids inside chunks and the default id elsewhere,
then running `get_chunks` with a tag mapping that decodes those ids
accordingly, returns exactly the original chunk list. -/
theorem chunk_roundtrip_amended (tags : List (List Char × Nat)) (d : Nat)
    (bId iId : List Char → Nat) (chunks : List Chunk) (n : Nat)
    (hO : tags.lookup NONE = some d)
    (hwf : ChunksWF 0 n chunks)
    (hdec : ∀ τ ∈ chunks.map (fun c : Chunk => c.1),
      idxToTag tags (bId τ) = some ('B' :: '-' :: τ) ∧
      idxToTag tags (iId τ) = some ('I' :: '-' :: τ) ∧ ¬bId τ = d ∧ ¬iId τ = d) :
    get_chunks (encSeq bId iId d 0 n chunks) tags = some chunks := by
  unfold get_chunks
  rw [hO]
  refine encSeq_closed (idxToTag tags) d bId iId chunks n 0 hwf ?_
  intro τ hm
  obtain ⟨hB, hI, hBne, hIne⟩ := hdec τ hm
  have hdash : '-' ∉ τ := ChunksWF_types_dashfree hwf τ hm
  exact ⟨get_chunk_type_prefixed (idxToTag tags) (bId τ) hB (by decide) hdash,
    get_chunk_type_prefixed (idxToTag tags) (iId τ) hI (by decide) hdash, hBne, hIne⟩

theorem chunk_roundtrip_amended_witness :
    get_chunks
      (encSeq (fun τ => if τ = ['P'] then 1 else 3) (fun τ => if τ = ['P'] then 2 else 4)
        0 0 5 [(['P'], 0, 2), (['Q'], 3, 4)])
      [(NONE, 0), (['B', '-', 'P'], 1), (['I', '-', 'P'], 2),
        (['B', '-', 'Q'], 3), (['I', '-', 'Q'], 4)] =
      some [(['P'], 0, 2), (['Q'], 3, 4)] :=
  chunk_roundtrip_amended
    [(NONE, 0), (['B', '-', 'P'], 1), (['I', '-', 'P'], 2),
      (['B', '-', 'Q'], 3), (['I', '-', 'Q'], 4)] 0
    (fun τ => if τ = ['P'] then 1 else 3) (fun τ => if τ = ['P'] then 2 else 4)
    [(['P'], 0, 2), (['Q'], 3, 4)] 5 (by decide) (by decide) (by decide)

/-- C3 (counterexample to the claim as stated): for the single chunk
`("A-B", 0, 1)` — positive span, trivially non-overlapping and increasing —
encoding it with a mapping that assigns `B-A-B` id 1 and `I-A-B` id 2 and
extracting does not return the original chunk list: the decoder splits the
tag name on `'-'` and recovers the type `"B"` instead of `"A-B"`. -/
theorem chunk_roundtrip_counterexample :
    get_chunks
      (encSeq (fun _ => 1) (fun _ => 2) 0 0 1 [(['A', '-', 'B'], 0, 1)])
      [(NONE, 0), (['B', '-', 'A', '-', 'B'], 1), (['I', '-', 'A', '-', 'B'], 2)] ≠
      some [(['A', '-', 'B'], 0, 1)] := by
  decide

/-! ### Claim C4: two-level padding shape consistency -/

theorem padOne_take_form (p : α) (m : Nat) (s : List α) :
    padOne p m s = s.take m ++ List.replicate (m - min s.length m) p := by
  unfold padOne
  by_cases h : s.length < m
  · rw [if_pos h, Nat.max_zero, Nat.min_eq_left (le_of_lt h)]
  · rw [if_neg h, Nat.min_eq_right (Nat.le_of_not_lt h), Nat.sub_self,
      List.replicate_zero, List.append_nil]

theorem padOne_drop (p : α) (m : Nat) (s : List α) :
    (padOne p m s).drop (min s.length m) = List.replicate (m - min s.length m) p := by
  rw [padOne_take_form]
  have hlen : (s.take m).length = min s.length m := by
    rw [List.length_take, Nat.min_comm]
  rw [← hlen, List.drop_left]

theorem pyMax_of_ne_nil {l : List Nat} (h : l ≠ []) : ∃ m, pyMax l = some m := by
  cases l with
  | nil => exact absurd rfl h
  | cons x xs => exact ⟨xs.foldl max x, rfl⟩

theorem innerMaxes_of_ne_nil {sentences : List (List (List α))}
    (h : ∀ s ∈ sentences, s ≠ []) :
    ∃ ms, innerMaxes sentences = some ms ∧ ms.length = sentences.length := by
  induction sentences with
  | nil => exact ⟨[], rfl, rfl⟩
  | cons seq rest ih =>
    obtain ⟨ms, hms, hlen⟩ := ih (fun s hs => h s (List.mem_cons_of_mem seq hs))
    have hseq : seq ≠ [] := h seq (List.mem_cons_self seq rest)
    have hmap : seq.map List.length ≠ [] := by
      intro hc
      exact hseq (List.map_eq_nil_iff.mp hc)
    obtain ⟨m, hm⟩ := pyMax_of_ne_nil hmap
    refine ⟨m :: ms, ?_, by simp [hlen]⟩
    simp only [innerMaxes, hm, hms]

/-- Unfolding `pad_sequences2` once the word target `W` and sentence
target `S` are determined. -/
theorem pad_sequences2_eq (sentences : List (List (List α))) (mlS : Option Nat)
    (p : α) (mlW : Option Nat) (W S : Nat)
    (hW : wTargetOf sentences mlW = some W)
    (hS : sTargetOf sentences mlS = some S) :
    pad_sequences2 sentences mlS p mlW = some
      ((sentences.map (fun seq => seq.map (padOne p W))).map
          (padOne (List.replicate W p) S),
        (sentences.map (fun seq => seq.map (fun w => min w.length W))).map
          (padOne 0 S)) := by
  unfold pad_sequences2
  rw [hW, hS]
  unfold _pad_sequences
  simp [List.map_map, Function.comp]

/-- C4. Two-level padding shape consistency: for a non-empty list of
sentences with non-empty word lists, `pad_sequences2` succeeds; with `W`
the given (or computed) word target and `S` the given (or computed)
sentence target, every padded word has exactly `W` characters, every
padded sentence exactly `S` words, short sentences are filled with whole
words of `W` pad values, and each per-word length list is padded to
exactly `S` entries using `0` as filler. -/
theorem pad_two_level_spec (sentences : List (List (List α))) (mlS mlW : Option Nat)
    (p : α) (hne : sentences ≠ []) (hwne : ∀ s ∈ sentences, s ≠ []) :
    ∃ padded lengths W S,
      pad_sequences2 sentences mlS p mlW = some (padded, lengths) ∧
      (∀ w, mlW = some w → W = w) ∧
      (∀ m, mlS = some m → S = m) ∧
      padded.length = sentences.length ∧
      lengths.length = sentences.length ∧
      (∀ sent ∈ padded, sent.length = S) ∧
      (∀ sent ∈ padded, ∀ word ∈ sent, word.length = W) ∧
      (∀ l ∈ lengths, l.length = S) ∧
      List.Forall₂ (fun orig pad => pad.drop (min orig.length S) =
        List.replicate (S - min orig.length S) (List.replicate W p)) sentences padded ∧
      List.Forall₂ (fun orig l => l =
        (orig.map (fun w => min w.length W)).take S ++
          List.replicate (S - min orig.length S) 0) sentences lengths := by
  have hWex : ∃ W, wTargetOf sentences mlW = some W ∧ ∀ w, mlW = some w → W = w := by
    cases mlW with
    | some w => exact ⟨w, rfl, fun w' hw' => Option.some_inj.mp hw'⟩
    | none =>
      obtain ⟨ms, hms, hlen⟩ := innerMaxes_of_ne_nil hwne
      have hmsne : ms ≠ [] := by
        intro hc
        subst hc
        exact hne (List.length_eq_zero.mp hlen.symm)
      obtain ⟨m, hm⟩ := pyMax_of_ne_nil hmsne
      refine ⟨m, ?_, fun w' hw' => Option.noConfusion hw'⟩
      unfold wTargetOf
      rw [hms]
      exact hm
  have hSex : ∃ S, sTargetOf sentences mlS = some S ∧ ∀ m, mlS = some m → S = m := by
    cases mlS with
    | some m => exact ⟨m, rfl, fun m' hm' => Option.some_inj.mp hm'⟩
    | none =>
      have hmapne : sentences.map List.length ≠ [] := by
        intro hc
        exact hne (List.map_eq_nil_iff.mp hc)
      obtain ⟨m, hm⟩ := pyMax_of_ne_nil hmapne
      exact ⟨m, hm, fun m' hm' => Option.noConfusion hm'⟩
  obtain ⟨W, hW, hWc⟩ := hWex
  obtain ⟨S, hS, hSc⟩ := hSex
  refine ⟨_, _, W, S, pad_sequences2_eq sentences mlS p mlW W S hW hS, hWc, hSc,
    ?_, ?_, ?_, ?_, ?_, ?_, ?_⟩
  · simp
  · simp
  · intro sent hsent
    simp only [List.mem_map] at hsent
    obtain ⟨x, _, rfl⟩ := hsent
    exact padOne_length _ S x
  · intro sent hsent word hword
    rw [List.map_map] at hsent
    obtain ⟨orig, _, rfl⟩ := List.mem_map.mp hsent
    simp only [Function.comp_apply] at hword
    rw [padOne_take_form] at hword
    rcases List.mem_append.mp hword with hw | hw
    · obtain ⟨w0, _, rfl⟩ := List.mem_map.mp (List.take_subset _ _ hw)
      exact padOne_length p W w0
    · rw [List.eq_of_mem_replicate hw]
      exact List.length_replicate _ _
  · intro l hl
    simp only [List.mem_map] at hl
    obtain ⟨x, _, rfl⟩ := hl
    exact padOne_length 0 S x
  · rw [List.map_map, List.forall₂_map_right_iff, List.forall₂_same]
    intro orig _
    show (padOne (List.replicate W p) S (orig.map (padOne p W))).drop
        (min orig.length S) =
      List.replicate (S - min orig.length S) (List.replicate W p)
    have hlen : (orig.map (padOne p W)).length = orig.length := List.length_map orig _
    rw [← hlen, padOne_drop, hlen]
  · rw [List.map_map, List.forall₂_map_right_iff, List.forall₂_same]
    intro orig _
    show padOne 0 S (orig.map (fun w => min w.length W)) =
      (orig.map (fun w => min w.length W)).take S ++
        List.replicate (S - min orig.length S) 0
    have hlen : (orig.map (fun w => min w.length W)).length = orig.length :=
      List.length_map orig _
    rw [padOne_take_form, hlen]

theorem pad_two_level_spec_witness :
    ∃ padded lengths W S,
      pad_sequences2 [[[1, 2, 3], [4]], [[5]]] none (0 : Nat) none =
        some (padded, lengths) ∧
      (∀ w, (none : Option Nat) = some w → W = w) ∧
      (∀ m, (none : Option Nat) = some m → S = m) ∧
      padded.length = [[[1, 2, 3], [4]], [[5]]].length ∧
      lengths.length = [[[1, 2, 3], [4]], [[5]]].length ∧
      (∀ sent ∈ padded, sent.length = S) ∧
      (∀ sent ∈ padded, ∀ word ∈ sent, word.length = W) ∧
      (∀ l ∈ lengths, l.length = S) ∧
      List.Forall₂ (fun (orig : List (List Nat)) pad => pad.drop (min orig.length S) =
        List.replicate (S - min orig.length S) (List.replicate W 0))
        [[[1, 2, 3], [4]], [[5]]] padded ∧
      List.Forall₂ (fun (orig : List (List Nat)) l => l =
        (orig.map (fun w => min w.length W)).take S ++
          List.replicate (S - min orig.length S) 0) [[[1, 2, 3], [4]], [[5]]] lengths :=
  pad_two_level_spec [[[1, 2, 3], [4]], [[5]]] none none 0 (by decide) (by decide)

/-! ### Claim C6: numeric classification -/

/-- C6. `is_digit` accepts a string exactly when one of the three checks
holds: the float parse succeeds, the string is a single character with a
defined numeric value, or the sign-digits-comma-digits pattern matches
(with `re`'s `$` also matching before one trailing newline). In
particular `"3.14"` (given that CPython's `float` parses it), `"12,345"`,
`"12,345\n"` and a numeric Unicode fraction character classify as
numeric, while `"abc123"` (which `float` rejects) does not. -/
theorem is_digit_spec (fp : List Char → Bool) (nv : Char → Bool)
    (h314 : fp ['3', '.', '1', '4'] = true)
    (habc : fp ['a', 'b', 'c', '1', '2', '3'] = false)
    (hfrac : nv '½' = true) :
    (∀ s, is_digit fp nv s =
      (fp s || (match s with | [c] => nv c | _ => false) || commaNumMatch s)) ∧
    is_digit fp nv ['3', '.', '1', '4'] = true ∧
    is_digit fp nv ['1', '2', ',', '3', '4', '5'] = true ∧
    is_digit fp nv ['1', '2', ',', '3', '4', '5', '\n'] = true ∧
    is_digit fp nv ['½'] = true ∧
    is_digit fp nv ['a', 'b', 'c', '1', '2', '3'] = false := by
  have hdisj : ∀ s, is_digit fp nv s =
      (fp s || (match s with | [c] => nv c | _ => false) || commaNumMatch s) := by
    intro s
    cases hfp : fp s <;>
      cases hmt : (match s with | [c] => nv c | _ => false) <;>
        cases hcm : commaNumMatch s <;>
          simp [is_digit, hfp, hmt, hcm]
  refine ⟨hdisj, ?_, ?_, ?_, ?_, ?_⟩
  · rw [hdisj, h314]
    rfl
  · rw [hdisj]
    have : commaNumMatch ['1', '2', ',', '3', '4', '5'] = true := by decide
    rw [this]
    simp
  · rw [hdisj]
    have : commaNumMatch ['1', '2', ',', '3', '4', '5', '\n'] = true := by decide
    rw [this]
    simp
  · rw [hdisj]
    simp [hfrac]
  · rw [hdisj, habc]
    have : commaNumMatch ['a', 'b', 'c', '1', '2', '3'] = false := by decide
    rw [this]
    rfl

theorem is_digit_spec_witness :
    (∀ s, is_digit (fun s => decide (s = ['3', '.', '1', '4']))
        (fun c => decide (c = '½')) s =
      ((fun s => decide (s = ['3', '.', '1', '4'])) s ||
        (match s with | [c] => decide (c = '½') | _ => false) || commaNumMatch s)) ∧
    is_digit (fun s => decide (s = ['3', '.', '1', '4'])) (fun c => decide (c = '½'))
      ['3', '.', '1', '4'] = true ∧
    is_digit (fun s => decide (s = ['3', '.', '1', '4'])) (fun c => decide (c = '½'))
      ['1', '2', ',', '3', '4', '5'] = true ∧
    is_digit (fun s => decide (s = ['3', '.', '1', '4'])) (fun c => decide (c = '½'))
      ['1', '2', ',', '3', '4', '5', '\n'] = true ∧
    is_digit (fun s => decide (s = ['3', '.', '1', '4'])) (fun c => decide (c = '½'))
      ['½'] = true ∧
    is_digit (fun s => decide (s = ['3', '.', '1', '4'])) (fun c => decide (c = '½'))
      ['a', 'b', 'c', '1', '2', '3'] = false :=
  is_digit_spec (fun s => decide (s = ['3', '.', '1', '4'])) (fun c => decide (c = '½'))
    (by decide) (by decide) (by decide)

/-! ### Claim C7: unknown-token handling -/

theorem mkEncoded_wordId (p : Processor) (cs : List Nat) (id : Nat) :
    (mkEncoded p cs id).wordId = id := by
  unfold mkEncoded
  cases p.char_vocab with
  | none => rfl
  | some cv =>
    cases p.use_chars with
    | false => rfl
    | true => rfl

/-- C7. Unknown-token handling of `Processor.fit`: when the processed
form of the token (after optional lowercasing and `<NUM>` substitution)
is absent from the word vocabulary, `fit` fails with the
"Unknown key is not allowed" error if the fallback is disabled, and
returns the id of the `<UNK>` placeholder if it is enabled (and present);
when the processed form is present, `fit` returns its vocabulary id and
neither branch triggers. -/
theorem unknown_token_spec (p : Processor) (fp : List Char → Bool) (nv : Char → Bool)
    (word : List Char) :
    (p.word_vocab (processedWord p fp nv word) = none → p.allow_unk = false →
      p.fit fp nv word = .error .unknownNotAllowed) ∧
    (∀ u, p.word_vocab (processedWord p fp nv word) = none → p.allow_unk = true →
      p.word_vocab UNK = some u →
      ∃ t, p.fit fp nv word = .ok t ∧ t.wordId = u) ∧
    (∀ id, p.word_vocab (processedWord p fp nv word) = some id →
      ∃ t, p.fit fp nv word = .ok t ∧ t.wordId = id) := by
  refine ⟨?_, ?_, ?_⟩
  · intro hnone hunk
    simp [Processor.fit, hnone, hunk]
  · intro u hnone hunk huid
    refine ⟨mkEncoded p
      (match p.char_vocab with
        | some cv => if p.use_chars then word.filterMap cv else []
        | none => []) u, ?_, mkEncoded_wordId p _ u⟩
    simp [Processor.fit, hnone, hunk, huid]
  · intro id hid
    refine ⟨mkEncoded p
      (match p.char_vocab with
        | some cv => if p.use_chars then word.filterMap cv else []
        | none => []) id, ?_, mkEncoded_wordId p _ id⟩
    simp [Processor.fit, hid]

theorem unknown_token_spec_witness :
    Processor.fit
      ⟨fun w => if w = ['h'] then some 7 else none, none, false, false, false⟩
      (fun _ => false) (fun _ => false) ['z'] = .error .unknownNotAllowed ∧
    (∃ t, Processor.fit
      ⟨fun w => if w = ['h'] then some 7 else if w = UNK then some 1 else none,
        none, false, false, true⟩
      (fun _ => false) (fun _ => false) ['z'] = .ok t ∧ t.wordId = 1) ∧
    (∃ t, Processor.fit
      ⟨fun w => if w = ['h'] then some 7 else none, none, false, false, false⟩
      (fun _ => false) (fun _ => false) ['h'] = .ok t ∧ t.wordId = 7) :=
  ⟨(unknown_token_spec
      ⟨fun w => if w = ['h'] then some 7 else none, none, false, false, false⟩
      (fun _ => false) (fun _ => false) ['z']).1 (by decide) rfl,
   (unknown_token_spec
      ⟨fun w => if w = ['h'] then some 7 else if w = UNK then some 1 else none,
        none, false, false, true⟩
      (fun _ => false) (fun _ => false) ['z']).2.1 1 (by decide) rfl (by decide),
   (unknown_token_spec
      ⟨fun w => if w = ['h'] then some 7 else none, none, false, false, false⟩
      (fun _ => false) (fun _ => false) ['h']).2.2 7 (by decide)⟩

/-! ### Claim C8: batch count and sizes -/

theorem groupsOf_nil (B : Nat) : groupsOf B ([] : List α) = [] := by
  rw [groupsOf]
  rfl

theorem groupsOf_step {B : Nat} {l : List α} (hB : B ≠ 0) (hl : l ≠ []) :
    groupsOf B l = l.take B :: groupsOf B (l.drop B) := by
  rw [groupsOf, dif_neg]
  simp [hl, hB]

theorem groupsOf_ne_nil {B : Nat} {l : List α} (hB : B ≠ 0) (hl : l ≠ []) :
    groupsOf B l ≠ [] := by
  rw [groupsOf_step hB hl]
  simp

theorem groupsOf_length_aux {B : Nat} (hB : 1 ≤ B) :
    ∀ (n : Nat) (l : List α), l.length ≤ n → l ≠ [] →
      (groupsOf B l).length = (l.length + B - 1) / B := by
  intro n
  induction n with
  | zero =>
    intro l hle hne
    cases l with
    | nil => exact absurd rfl hne
    | cons a t => simp at hle
  | succ n ih =>
    intro l hle hne
    rw [groupsOf_step (by omega) hne]
    by_cases hsmall : l.length ≤ B
    · rw [List.drop_eq_nil_of_le hsmall, groupsOf_nil]
      have hpos : 1 ≤ l.length := List.length_pos.mpr hne
      have : (l.length + B - 1) / B = 1 := by
        apply Nat.div_eq_of_lt_le
        · omega
        · omega
      rw [this]
      rfl
    · have hne' : l.drop B ≠ [] := by
        intro hc
        have := congrArg List.length hc
        simp only [List.length_drop, List.length_nil] at this
        omega
      have hlen' : (l.drop B).length ≤ n := by
        simp only [List.length_drop]
        omega
      rw [List.length_cons, ih (l.drop B) hlen' hne', List.length_drop]
      have e1 : l.length - B + B - 1 = l.length - 1 := by omega
      have e2 : l.length + B - 1 = l.length - 1 + B := by omega
      rw [e1, e2, Nat.add_div_right _ (by omega)]

theorem groupsOf_length {B : Nat} (hB : 1 ≤ B) {l : List α} (hne : l ≠ []) :
    (groupsOf B l).length = (l.length + B - 1) / B :=
  groupsOf_length_aux hB l.length l le_rfl hne

theorem groupsOf_dropLast_aux {B : Nat} (hB : 1 ≤ B) :
    ∀ (n : Nat) (l : List α), l.length ≤ n →
      ∀ g ∈ (groupsOf B l).dropLast, g.length = B := by
  intro n
  induction n with
  | zero =>
    intro l hle g hg
    cases l with
    | nil => rw [groupsOf_nil] at hg; simp at hg
    | cons a t => simp at hle
  | succ n ih =>
    intro l hle g hg
    by_cases hl : l = []
    · subst hl
      rw [groupsOf_nil] at hg
      simp at hg
    · rw [groupsOf_step (by omega) hl] at hg
      by_cases hsmall : l.length ≤ B
      · rw [List.drop_eq_nil_of_le hsmall, groupsOf_nil] at hg
        simp at hg
      · have hne' : l.drop B ≠ [] := by
          intro hc
          have := congrArg List.length hc
          simp only [List.length_drop, List.length_nil] at this
          omega
        rw [List.dropLast_cons_of_ne_nil (groupsOf_ne_nil (by omega) hne')] at hg
        rcases List.mem_cons.mp hg with rfl | hmem
        · rw [List.length_take]
          omega
        · exact ih (l.drop B) (by simp only [List.length_drop]; omega) g hmem

theorem groupsOf_getLast_aux {B : Nat} (hB : 1 ≤ B) :
    ∀ (n : Nat) (l : List α), l.length ≤ n → l ≠ [] →
      ∀ g, (groupsOf B l).getLast? = some g →
        g.length = (if l.length % B = 0 then B else l.length % B) := by
  intro n
  induction n with
  | zero =>
    intro l hle hne
    cases l with
    | nil => exact absurd rfl hne
    | cons a t => simp at hle
  | succ n ih =>
    intro l hle hne g hg
    rw [groupsOf_step (by omega) hne] at hg
    by_cases hsmall : l.length ≤ B
    · rw [List.drop_eq_nil_of_le hsmall, groupsOf_nil] at hg
      have hg' : l.take B = g := by
        simpa using hg
      subst hg'
      rw [List.take_of_length_le hsmall]
      have hpos : 1 ≤ l.length := List.length_pos.mpr hne
      rcases eq_or_lt_of_le hsmall with heq | hlt
      · rw [heq, Nat.mod_self, if_pos rfl]
      · rw [Nat.mod_eq_of_lt hlt, if_neg (by omega)]
    · have hne' : l.drop B ≠ [] := by
        intro hc
        have := congrArg List.length hc
        simp only [List.length_drop, List.length_nil] at this
        omega
      have hB0 : B ≠ 0 := by omega
      obtain ⟨b, t, hbt⟩ := List.exists_cons_of_ne_nil (groupsOf_ne_nil hB0 hne')
      rw [hbt, List.getLast?_cons_cons, ← hbt] at hg
      have := ih (l.drop B) (by simp only [List.length_drop]; omega) hne' g hg
      rw [List.length_drop] at this
      rw [this]
      have hmod : (l.length - B) % B = l.length % B :=
        (Nat.mod_eq_sub_mod (by omega)).symm
      rw [hmod]

theorem groupsOf_flatten_aux {B : Nat} (hB : 1 ≤ B) :
    ∀ (n : Nat) (l : List α), l.length ≤ n → (groupsOf B l).flatten = l := by
  intro n
  induction n with
  | zero =>
    intro l hle
    cases l with
    | nil => rw [groupsOf_nil]; rfl
    | cons a t => simp at hle
  | succ n ih =>
    intro l hle
    by_cases hl : l = []
    · subst hl
      rw [groupsOf_nil]
      rfl
    · rw [groupsOf_step (by omega) hl, List.flatten_cons,
        ih (l.drop B) (by simp only [List.length_drop]; omega),
        List.take_append_drop]

theorem groupsOf_append_full {B : Nat} (hB : 1 ≤ B) {z w : List α}
    (hz : z.length = B) :
    groupsOf B (z ++ w) = z :: groupsOf B w := by
  have hzne : z ≠ [] := by
    intro hc
    subst hc
    simp at hz
    omega
  have hne : z ++ w ≠ [] := by
    intro hc
    exact hzne (List.append_eq_nil.mp hc).1
  rw [groupsOf_step (by omega) hne, ← hz, List.take_left, List.drop_left]

theorem encodeAll_some {β : Type} {dataset : List (List EncodedToken × β)}
    (hok : ∀ p ∈ dataset, (transposeIfTuple p.1).isSome) :
    ∃ l, encodeAll dataset = some l ∧ l.length = dataset.length ∧
      l.map Prod.snd = dataset.map Prod.snd := by
  induction dataset with
  | nil => exact ⟨[], rfl, rfl, rfl⟩
  | cons p rest ih =>
    obtain ⟨x, y⟩ := p
    obtain ⟨l, hl, hlen, hsnd⟩ := ih (fun q hq => hok q (List.mem_cons_of_mem _ hq))
    obtain ⟨x2, hx2⟩ := Option.isSome_iff_exists.mp (hok (x, y) (List.mem_cons_self _ _))
    refine ⟨(x2, y) :: l, ?_, by simp [hlen], by simp [hsnd]⟩
    simp only [encodeAll, hx2, hl]

theorem batchIterAux_nil {β : Type} (B : Nat) (bx : List XItem) (byl : List β) :
    batchIterAux B [] bx byl =
      if bx.length ≠ 0 then some [(bx, byl)] else some [] := by
  simp only [batchIterAux]

theorem batchIterAux_cons_full {β : Type} (B : Nat) (x : List EncodedToken) (y : β)
    (rest : List (List EncodedToken × β)) (bx : List XItem) (byl : List β)
    (hfull : bx.length = B) (x2 : XItem) (htx : transposeIfTuple x = some x2) :
    batchIterAux B ((x, y) :: rest) bx byl =
      match batchIterAux B rest [x2] [y] with
      | none => none
      | some tail => some ((bx, byl) :: tail) := by
  simp only [batchIterAux, if_pos hfull, htx]
  cases batchIterAux B rest [x2] [y] <;> rfl

theorem batchIterAux_cons_full_err {β : Type} (B : Nat) (x : List EncodedToken) (y : β)
    (rest : List (List EncodedToken × β)) (bx : List XItem) (byl : List β)
    (hfull : bx.length = B) (htx : transposeIfTuple x = none) :
    batchIterAux B ((x, y) :: rest) bx byl = none := by
  simp only [batchIterAux, if_pos hfull, htx]

theorem batchIterAux_cons_app {β : Type} (B : Nat) (x : List EncodedToken) (y : β)
    (rest : List (List EncodedToken × β)) (bx : List XItem) (byl : List β)
    (hfull : ¬bx.length = B) (x2 : XItem) (htx : transposeIfTuple x = some x2) :
    batchIterAux B ((x, y) :: rest) bx byl =
      batchIterAux B rest (bx ++ [x2]) (byl ++ [y]) := by
  simp only [batchIterAux, if_neg hfull, htx]

theorem batchIterAux_cons_app_err {β : Type} (B : Nat) (x : List EncodedToken) (y : β)
    (rest : List (List EncodedToken × β)) (bx : List XItem) (byl : List β)
    (hfull : ¬bx.length = B) (htx : transposeIfTuple x = none) :
    batchIterAux B ((x, y) :: rest) bx byl = none := by
  simp only [batchIterAux, if_neg hfull, htx]

/-- `batch_iter`'s loop is chunking: with accumulators holding fewer than
a full batch, the result is the `B`-chunking of the accumulated pairs
followed by the transposed remaining input. -/
theorem batchIterAux_eq {β : Type} (B : Nat) (hB : 1 ≤ B) :
    ∀ (rest : List (List EncodedToken × β)) (bx : List XItem) (byl : List β),
      bx.length = byl.length → bx.length ≤ B →
      batchIterAux B rest bx byl =
        (encodeAll rest).map (fun l => (groupsOf B (bx.zip byl ++ l)).map
          (fun g => (g.map Prod.fst, g.map Prod.snd))) := by
  intro rest
  induction rest with
  | nil =>
    intro bx byl hlen hle
    rw [batchIterAux_nil]
    cases bx with
    | nil =>
      have hbyl : byl = [] := List.length_eq_zero.mp hlen.symm
      subst hbyl
      simp [encodeAll, groupsOf_nil]
    | cons a t =>
      have hne0 : (a :: t).length ≠ 0 := by simp
      have hzlen : ((a :: t).zip byl).length = (a :: t).length := by
        rw [List.length_zip, hlen, Nat.min_self, ← hlen]
      have hzne : (a :: t).zip byl ≠ [] := by
        intro hc
        have := congrArg List.length hc
        rw [hzlen] at this
        simp at this
      have hB0 : B ≠ 0 := by omega
      rw [if_pos hne0]
      simp only [encodeAll, Option.map_some']
      rw [List.append_nil, groupsOf_step hB0 hzne,
        List.drop_eq_nil_of_le (by rw [hzlen]; omega), groupsOf_nil,
        List.take_of_length_le (by rw [hzlen]; omega)]
      simp only [List.map_cons, List.map_nil]
      rw [List.map_fst_zip (a :: t) byl (by omega), List.map_snd_zip (a :: t) byl (by omega)]
  | cons p rest ih =>
    obtain ⟨x, y⟩ := p
    intro bx byl hlen hle
    by_cases hfull : bx.length = B
    · cases htx : transposeIfTuple x with
      | none =>
        rw [batchIterAux_cons_full_err B x y rest bx byl hfull htx]
        simp only [encodeAll, htx, Option.map_none']
      | some x2 =>
        rw [batchIterAux_cons_full B x y rest bx byl hfull x2 htx,
          ih [x2] [y] rfl (by simpa using hB)]
        simp only [encodeAll, htx]
        cases henc : encodeAll rest with
        | none => rfl
        | some l =>
          have hzfull : (bx.zip byl).length = B := by
            rw [List.length_zip, hlen, Nat.min_self, ← hlen, hfull]
          show some ((bx, byl) :: (groupsOf B ((x2, y) :: l)).map
              (fun g => (g.map Prod.fst, g.map Prod.snd))) =
            some ((groupsOf B (bx.zip byl ++ (x2, y) :: l)).map
              (fun g => (g.map Prod.fst, g.map Prod.snd)))
          rw [groupsOf_append_full hB hzfull]
          simp only [List.map_cons]
          rw [List.map_fst_zip bx byl (by omega), List.map_snd_zip bx byl (by omega)]
    · cases htx : transposeIfTuple x with
      | none =>
        rw [batchIterAux_cons_app_err B x y rest bx byl hfull htx]
        simp only [encodeAll, htx, Option.map_none']
      | some x2 =>
        rw [batchIterAux_cons_app B x y rest bx byl hfull x2 htx,
          ih (bx ++ [x2]) (byl ++ [y]) (by simp [hlen]) (by simp; omega)]
        simp only [encodeAll, htx]
        cases henc : encodeAll rest with
        | none => rfl
        | some l =>
          show some ((groupsOf B ((bx ++ [x2]).zip (byl ++ [y]) ++ l)).map
              (fun g => (g.map Prod.fst, g.map Prod.snd))) =
            some ((groupsOf B (bx.zip byl ++ (x2, y) :: l)).map
              (fun g => (g.map Prod.fst, g.map Prod.snd)))
          rw [List.zip_append hlen, List.append_assoc]
          rfl

/-- C8. Batch count and sizes: for a non-empty dataset of `N` transposable
sentence/tag pairs and batch size `B ≥ 1`, `batch_iter` succeeds and
yields exactly `⌈N/B⌉` batches; every batch but the last holds exactly
`B` pairs, the last holds `N mod B` pairs when `B` does not divide `N`
and `B` otherwise (so it is emitted even when incomplete), and the
batches preserve the input's tag sequences in order. -/
theorem batch_iter_spec {β : Type} (dataset : List (List EncodedToken × β)) (B : Nat)
    (hB : 1 ≤ B) (hne : dataset ≠ [])
    (hok : ∀ p ∈ dataset, (transposeIfTuple p.1).isSome) :
    ∃ batches, batch_iter dataset B = some batches ∧
      batches.length = (dataset.length + B - 1) / B ∧
      (∀ b ∈ batches.dropLast, b.1.length = B ∧ b.2.length = B) ∧
      batches ≠ [] ∧
      (∀ b, batches.getLast? = some b →
        b.1.length = (if dataset.length % B = 0 then B else dataset.length % B) ∧
        b.2.length = (if dataset.length % B = 0 then B else dataset.length % B)) ∧
      (batches.map Prod.snd).flatten = dataset.map Prod.snd := by
  obtain ⟨l, hl, hlen, hsnd⟩ := encodeAll_some hok
  have hlne : l ≠ [] := by
    intro hc
    subst hc
    exact hne (List.length_eq_zero.mp hlen.symm)
  have heq : batch_iter dataset B =
      some ((groupsOf B l).map (fun g => (g.map Prod.fst, g.map Prod.snd))) := by
    unfold batch_iter
    rw [batchIterAux_eq B hB dataset [] [] rfl (by simp), hl]
    rfl
  refine ⟨_, heq, ?_, ?_, ?_, ?_, ?_⟩
  · rw [List.length_map, groupsOf_length hB hlne, hlen]
  · intro b hb
    rw [← List.map_dropLast] at hb
    obtain ⟨g, hg, rfl⟩ := List.mem_map.mp hb
    have := groupsOf_dropLast_aux hB l.length l le_rfl g hg
    constructor
    · rw [List.length_map, this]
    · rw [List.length_map, this]
  · intro hc
    exact groupsOf_ne_nil (by omega) hlne (List.map_eq_nil_iff.mp hc)
  · intro b hb
    rw [List.getLast?_map] at hb
    cases hg : (groupsOf B l).getLast? with
    | none => rw [hg] at hb; cases hb
    | some g =>
      rw [hg] at hb
      have hb' : b = (g.map Prod.fst, g.map Prod.snd) := by
        simpa using hb.symm
      subst hb'
      have := groupsOf_getLast_aux hB l.length l le_rfl hlne g hg
      rw [hlen] at this
      constructor
      · show (g.map Prod.fst).length = _
        rw [List.length_map, this]
      · show (g.map Prod.snd).length = _
        rw [List.length_map, this]
  · rw [List.map_map]
    have : (Prod.snd ∘ fun g : List (XItem × β) => (g.map Prod.fst, g.map Prod.snd)) =
        fun g : List (XItem × β) => g.map Prod.snd := rfl
    rw [this, ← List.map_flatten, groupsOf_flatten_aux hB l.length l le_rfl, hsnd]

theorem batch_iter_spec_witness :
    ∃ batches,
      batch_iter
        [([EncodedToken.plain 1], 10), ([EncodedToken.plain 2], 20),
          ([EncodedToken.plain 3], 30)] 2 = some batches ∧
      batches.length = ((3 : Nat) + 2 - 1) / 2 ∧
      (∀ b ∈ batches.dropLast, b.1.length = 2 ∧ b.2.length = 2) ∧
      batches ≠ [] ∧
      (∀ b, batches.getLast? = some b →
        b.1.length = (if (3 : Nat) % 2 = 0 then 2 else 3 % 2) ∧
        b.2.length = (if (3 : Nat) % 2 = 0 then 2 else 3 % 2)) ∧
      (batches.map Prod.snd).flatten =
        [([EncodedToken.plain 1], 10), ([EncodedToken.plain 2], 20),
          ([EncodedToken.plain 3], 30)].map Prod.snd :=
  batch_iter_spec
    [([EncodedToken.plain 1], 10), ([EncodedToken.plain 2], 20),
      ([EncodedToken.plain 3], 30)] 2 (by decide) (by decide) (by decide)

/-! ### Claim C9: empty input with no target length fails fast -/

/-- C9. Padding an empty list of sequences with `max_length = None` fails
(the `max` over zero sequences raises) instead of silently defaulting. -/
theorem pad_empty_fail_spec (p : α) : pad_sequences ([] : List (List α)) none p = none := by
  rfl

/-! ### Claim C10: trailing unterminated sentence is dropped -/

theorem splitOnChar_ne_nil (sep : Char) : ∀ l : List Char, splitOnChar sep l ≠ []
  | [] => by simp [splitOnChar]
  | c :: rest => by
    simp only [splitOnChar]
    by_cases hc : c = sep
    · simp [hc]
    · rw [if_neg hc]
      cases splitOnChar sep rest <;> simp

theorem datasetIterAux_boundary_skip (tag_idx : Nat) (delim : Char)
    (max_iter : Option Nat) (line : List Char) (rest words tags : List (List Char))
    (niter : Nat)
    (hcond : (pyStrip line).length = 0 ∨ DOCSTART.isPrefixOf (pyStrip line))
    (hwords : words.length = 0) :
    datasetIterAux tag_idx delim max_iter (line :: rest) words tags niter =
      datasetIterAux tag_idx delim max_iter rest words tags niter := by
  simp only [datasetIterAux, if_pos hcond, hwords]
  simp

theorem datasetIterAux_boundary_stop (tag_idx : Nat) (delim : Char)
    (max_iter : Option Nat) (line : List Char) (rest words tags : List (List Char))
    (niter : Nat)
    (hcond : (pyStrip line).length = 0 ∨ DOCSTART.isPrefixOf (pyStrip line))
    (hwords : words.length ≠ 0)
    (hstop : (match max_iter with
      | some m => decide (niter + 1 > m)
      | none => false) = true) :
    datasetIterAux tag_idx delim max_iter (line :: rest) words tags niter = some [] := by
  simp only [datasetIterAux, if_pos hcond, if_pos hwords, hstop]
  simp

theorem datasetIterAux_boundary_yield (tag_idx : Nat) (delim : Char)
    (max_iter : Option Nat) (line : List Char) (rest words tags : List (List Char))
    (niter : Nat)
    (hcond : (pyStrip line).length = 0 ∨ DOCSTART.isPrefixOf (pyStrip line))
    (hwords : words.length ≠ 0)
    (hstop : (match max_iter with
      | some m => decide (niter + 1 > m)
      | none => false) = false) :
    datasetIterAux tag_idx delim max_iter (line :: rest) words tags niter =
      match datasetIterAux tag_idx delim max_iter rest [] [] (niter + 1) with
      | none => none
      | some out => some ((words, tags) :: out) := by
  simp only [datasetIterAux, if_pos hcond, if_pos hwords, hstop]
  simp only [Bool.false_eq_true, if_false]

theorem datasetIterAux_token_step (tag_idx : Nat) (delim : Char)
    (max_iter : Option Nat) (line : List Char) (rest words tags : List (List Char))
    (niter : Nat) (word tag : List Char)
    (hcond : ¬((pyStrip line).length = 0 ∨ DOCSTART.isPrefixOf (pyStrip line)))
    (hw : (splitOnChar delim (pyStrip line))[0]? = some word)
    (ht : (splitOnChar delim (pyStrip line))[tag_idx]? = some tag) :
    datasetIterAux tag_idx delim max_iter (line :: rest) words tags niter =
      datasetIterAux tag_idx delim max_iter rest (words ++ [word]) (tags ++ [tag])
        niter := by
  simp only [datasetIterAux, if_neg hcond, hw, ht]

theorem datasetIterAux_token_err (tag_idx : Nat) (delim : Char)
    (max_iter : Option Nat) (line : List Char) (rest words tags : List (List Char))
    (niter : Nat)
    (hcond : ¬((pyStrip line).length = 0 ∨ DOCSTART.isPrefixOf (pyStrip line)))
    (ht : (splitOnChar delim (pyStrip line))[tag_idx]? = none) :
    datasetIterAux tag_idx delim max_iter (line :: rest) words tags niter = none := by
  cases hw : (splitOnChar delim (pyStrip line))[0]? <;>
    simp only [datasetIterAux, if_neg hcond, hw, ht]

/-- A run of well-formed token lines with no sentence boundary yields
nothing: whatever accumulates is discarded when the lines run out. -/
theorem datasetIterAux_all_token (tag_idx : Nat) (delim : Char)
    (max_iter : Option Nat) :
    ∀ (suffix : List (List Char)),
      (∀ line ∈ suffix, tokenLineOk tag_idx delim line = true) →
      ∀ (words tags : List (List Char)) (niter : Nat),
        datasetIterAux tag_idx delim max_iter suffix words tags niter = some [] := by
  intro suffix
  induction suffix with
  | nil => intro _ words tags niter; rfl
  | cons line rest ih =>
    intro hs words tags niter
    have hline := hs line (List.mem_cons_self line rest)
    simp only [tokenLineOk, Bool.and_eq_true, Bool.not_eq_true',
      List.isEmpty_eq_false, Option.isSome_iff_exists] at hline
    obtain ⟨⟨h1, h2⟩, tag, ht⟩ := hline
    have hcond : ¬((pyStrip line).length = 0 ∨ DOCSTART.isPrefixOf (pyStrip line)) := by
      rintro (hc | hc)
      · exact h1 (List.length_eq_zero.mp hc)
      · rw [h2] at hc
        cases hc
    obtain ⟨a, as, hsplit⟩ :=
      List.exists_cons_of_ne_nil (splitOnChar_ne_nil delim (pyStrip line))
    have hw : (splitOnChar delim (pyStrip line))[0]? = some a := by
      rw [hsplit]
      simp
    rw [datasetIterAux_token_step tag_idx delim max_iter line rest words tags niter
      a tag hcond hw ht]
    exact ih (fun ln hln => hs ln (List.mem_cons_of_mem line hln)) _ _ niter

/-- Appending well-formed token lines with no closing boundary to a file
does not change the yielded sentences. -/
theorem datasetIterAux_append_token (tag_idx : Nat) (delim : Char)
    (max_iter : Option Nat) (suffix : List (List Char))
    (hs : ∀ line ∈ suffix, tokenLineOk tag_idx delim line = true) :
    ∀ (front words tags : List (List Char)) (niter : Nat),
      datasetIterAux tag_idx delim max_iter (front ++ suffix) words tags niter =
        datasetIterAux tag_idx delim max_iter front words tags niter := by
  intro front
  induction front with
  | nil =>
    intro words tags niter
    rw [List.nil_append,
      datasetIterAux_all_token tag_idx delim max_iter suffix hs words tags niter]
    rfl
  | cons line front' ih =>
    intro words tags niter
    rw [List.cons_append]
    by_cases hcond : (pyStrip line).length = 0 ∨ DOCSTART.isPrefixOf (pyStrip line)
    · by_cases hwl : words.length = 0
      · rw [datasetIterAux_boundary_skip tag_idx delim max_iter line _ words tags niter
          hcond hwl,
          datasetIterAux_boundary_skip tag_idx delim max_iter line front' words tags niter
          hcond hwl]
        exact ih words tags niter
      · cases hstop : (match max_iter with
          | some m => decide (niter + 1 > m)
          | none => false) with
        | true =>
          rw [datasetIterAux_boundary_stop tag_idx delim max_iter line _ words tags niter
            hcond hwl hstop,
            datasetIterAux_boundary_stop tag_idx delim max_iter line front' words tags
            niter hcond hwl hstop]
        | false =>
          rw [datasetIterAux_boundary_yield tag_idx delim max_iter line _ words tags niter
            hcond hwl hstop,
            datasetIterAux_boundary_yield tag_idx delim max_iter line front' words tags
            niter hcond hwl hstop, ih [] [] (niter + 1)]
    · cases ht : (splitOnChar delim (pyStrip line))[tag_idx]? with
      | none =>
        rw [datasetIterAux_token_err tag_idx delim max_iter line _ words tags niter
          hcond ht,
          datasetIterAux_token_err tag_idx delim max_iter line front' words tags niter
          hcond ht]
      | some tag =>
        obtain ⟨a, as, hsplit⟩ :=
          List.exists_cons_of_ne_nil (splitOnChar_ne_nil delim (pyStrip line))
        have hw : (splitOnChar delim (pyStrip line))[0]? = some a := by
          rw [hsplit]
          simp
        rw [datasetIterAux_token_step tag_idx delim max_iter line _ words tags niter
          a tag hcond hw ht,
          datasetIterAux_token_step tag_idx delim max_iter line front' words tags niter
          a tag hcond hw ht]
        exact ih _ _ niter

/-- C10. A trailing unterminated sentence is silently dropped: appending
token lines not followed by any blank or `-DOCSTART-` boundary to a
corpus does not change what `Dataset` iteration yields, and a corpus made
only of such token lines yields no sentence at all. -/
theorem dataset_trailing_spec (tag_idx : Nat) (delim : Char) (max_iter : Option Nat)
    (front suffix : List (List Char))
    (hs : ∀ line ∈ suffix, tokenLineOk tag_idx delim line = true) :
    dataset_iter tag_idx delim max_iter (front ++ suffix) =
      dataset_iter tag_idx delim max_iter front ∧
    dataset_iter tag_idx delim max_iter suffix = some [] := by
  constructor
  · exact datasetIterAux_append_token tag_idx delim max_iter suffix hs front [] [] 0
  · exact datasetIterAux_all_token tag_idx delim max_iter suffix hs [] [] 0

theorem dataset_trailing_spec_witness :
    dataset_iter 1 ' ' none ([['a', ' ', 'X'], []] ++ [['b', ' ', 'Y']]) =
      dataset_iter 1 ' ' none [['a', ' ', 'X'], []] ∧
    dataset_iter 1 ' ' none [['b', ' ', 'Y']] = some [] :=
  dataset_trailing_spec 1 ' ' none [['a', ' ', 'X'], []] [['b', ' ', 'Y']] (by decide)
